import Mathlib

set_option linter.unnecessarySeqFocus false
set_option linter.unreachableTactic false
set_option linter.unusedTactic false

/-!
# Verification of the `bolt-os/acpi` ACPI table library

Shallow embedding of the library's core algorithms, translated from the
Rust sources:

* `src/sdt.rs` — the `Mapped` handle (map/remap/unmap discipline on the
  `Bridge`), `RootTable::new`, `all_tables`, `get_table_by_signature`,
  and the trailing-element-count machinery
  (`header_dynamic_size` / `from_header_ptr_slice_of`);
* `src/madt.rs` — the free-standing `iter_madt` walker;
* `src/sdt/madt.rs` — `Madt::entries`;
* `src/sdt/rhct.rs` — `Rhct::get_node`, `Rhct::nodes`.

Machine integers (`usize`, `u32`, …) are modelled as `Nat` with explicit
wrapping (`% 2^64`) where the Rust code can over/underflow; the embedding
uses the release-profile semantics of Rust integer arithmetic (wrapping),
which is how this `no_std` kernel library is built.  Firmware memory is
modelled either as a total byte function `Nat → Nat` (for the root-table
walk, where the interesting properties are arithmetic and ordering) or as
a `List Nat` of the bytes of one mapped table, where `List.get?` returning
`none` models a read outside the mapped span (a fault / UB in the real
program).
-/

/-- `2^64`, the modulus of `usize` arithmetic on the 64-bit targets this
crate is built for. -/
def usizeSize : Nat := 2 ^ 64

/-- Wrapping `usize` subtraction (release-profile semantics of `a - b` in
Rust): ordinary subtraction when `b ≤ a`, otherwise wraps modulo `2^64`.
Inputs are assumed `< 2^64`. -/
def wsub (a b : Nat) : Nat := if b ≤ a then a - b else usizeSize - (b - a)

/-- Read one byte from a total physical-memory model. -/
def readU8 (mem : Nat → Nat) (a : Nat) : Nat := mem a % 256

/-- Little-endian `u32` read from a total physical-memory model
(`libsa::endian::u32_le::get`). -/
def readU32 (mem : Nat → Nat) (a : Nat) : Nat :=
  readU8 mem a + 256 * readU8 mem (a + 1) + 256 ^ 2 * readU8 mem (a + 2) +
    256 ^ 3 * readU8 mem (a + 3)

/-- Little-endian `u64` read from a total physical-memory model. -/
def readU64 (mem : Nat → Nat) (a : Nat) : Nat :=
  readU32 mem a + 2 ^ 32 * readU32 mem (a + 4)

/-- Little-endian `u32` read from a mapped byte list, defaulting to 0;
used for fields inside the fixed prefix of a table, which is always
mapped before the field is read. -/
def readU32L (tbl : List Nat) (a : Nat) : Nat :=
  tbl.getD a 0 + 256 * tbl.getD (a + 1) 0 + 256 ^ 2 * tbl.getD (a + 2) 0 +
    256 ^ 3 * tbl.getD (a + 3) 0

/-- Checked byte read from a mapped byte list: `none` models a read past
the end of the mapped span (a fault in the real program). -/
def readB (tbl : List Nat) (a : Nat) : Option Nat := tbl.get? a

/-- Checked little-endian `u16` read from a mapped byte list. -/
def readU16C (tbl : List Nat) (a : Nat) : Option Nat :=
  match tbl.get? a, tbl.get? (a + 1) with
  | some x, some y => some (x + 256 * y)
  | _, _ => none

/-- Checked little-endian `u32` read from a mapped byte list. -/
def readU32C (tbl : List Nat) (a : Nat) : Option Nat :=
  match readU16C tbl a, readU16C tbl (a + 2) with
  | some x, some y => some (x + 65536 * y)
  | _, _ => none

/-- Checked little-endian `u64` read from a mapped byte list. -/
def readU64C (tbl : List Nat) (a : Nat) : Option Nat :=
  match readU32C tbl a, readU32C tbl (a + 4) with
  | some x, some y => some (x + 4294967296 * y)
  | _, _ => none

/-!
## The `Mapped` handle and the `Bridge` call trace (`src/sdt.rs`, `mod mapped`)

The `Bridge` is the external mapping collaborator (`map`/`remap`/`unmap`).
We model an execution of the library as a sequence of handle-level
operations, each compiled from the Rust source:

* `mapHeader` — `map_header` / `map_table`: one `bridge.map` call
  producing a fresh handle (`Mapped::new`);
* `cloneHeader a` — `Mapped::clone_header` (and the identical
  `Clone::clone`): one `bridge.remap` call producing a second handle;
  the original handle `a` stays live at its old address;
* `mapFull a` — `Mapped::map_full`: one `bridge.remap` call producing the
  widened handle, after which the consumed header handle `a` goes out of
  scope and its `Drop` runs (`bridge.unmap` on the old address);
* `dropH a` — `Drop for Mapped`: one `bridge.unmap` call on the handle's
  address;
* `intoInner a` — `Mapped::into_inner`: `core::mem::forget(self)`,
  no bridge call; the mapping's ownership is given up.

Addresses returned by `map`/`remap` are modelled as fresh naturals drawn
from a counter; the address is thus a unique identifier of the
`map`/`remap` call that created the mapping, which is exactly what the
balance accounting needs (the real bridge may return any address).
-/

/-- A call made on the `Bridge`, recorded with the address identifying the
mapping it creates or releases. -/
inductive BridgeEv where
  | map (a : Nat)
  | remap (a : Nat)
  | unmap (a : Nat)
deriving DecidableEq, Repr

/-- Handle-level operation, referring to a live handle by the address of
the mapping it owns. -/
inductive HandleOp where
  | mapHeader
  | cloneHeader (a : Nat)
  | mapFull (a : Nat)
  | dropH (a : Nat)
  | intoInner (a : Nat)
deriving DecidableEq, Repr

/-- Execution state: fresh-address counter, addresses owned by live
handles, addresses whose ownership was given up via `into_inner`, and the
trace of bridge calls so far. -/
structure HandleState where
  next : Nat
  live : List Nat
  released : List Nat
  trace : List BridgeEv
deriving DecidableEq, Repr

/-- The empty execution. -/
def hInit : HandleState := ⟨0, [], [], []⟩

/-- Count occurrences of a value in a list (specialised, to keep the
accounting lemmas self-contained). -/
def ncount (a : Nat) : List Nat → Nat
  | [] => 0
  | b :: t => (if b = a then 1 else 0) + ncount a t

/-- Remove one occurrence of a value from a list (the effect of a handle
leaving the live set). -/
def removeOne (a : Nat) : List Nat → List Nat
  | [] => []
  | b :: t => if b = a then t else b :: removeOne a t

/-- Count of `map` and `remap` events for the mapping `a` — the number of
times a mapping identified by `a` was established. -/
def mrCount (t : List BridgeEv) (a : Nat) : Nat :=
  match t with
  | [] => 0
  | .map b :: r => (if b = a then 1 else 0) + mrCount r a
  | .remap b :: r => (if b = a then 1 else 0) + mrCount r a
  | .unmap _ :: r => mrCount r a

/-- Count of `unmap` events for the mapping `a`. -/
def umCount (t : List BridgeEv) (a : Nat) : Nat :=
  match t with
  | [] => 0
  | .unmap b :: r => (if b = a then 1 else 0) + umCount r a
  | .map _ :: r => umCount r a
  | .remap _ :: r => umCount r a

/-- One handle-level operation, as compiled from `src/sdt.rs` (see the
section comment).  `none` when the operation names a handle that is not
live — such a program cannot arise from the Rust ownership discipline. -/
def hStep (s : HandleState) : HandleOp → Option HandleState
  | .mapHeader =>
      some ⟨s.next + 1, s.next :: s.live, s.released, s.trace ++ [.map s.next]⟩
  | .cloneHeader a =>
      if 0 < ncount a s.live then
        some ⟨s.next + 1, s.next :: s.live, s.released, s.trace ++ [.remap s.next]⟩
      else none
  | .mapFull a =>
      if 0 < ncount a s.live then
        some ⟨s.next + 1, s.next :: removeOne a s.live, s.released,
          s.trace ++ [.remap s.next, .unmap a]⟩
      else none
  | .dropH a =>
      if 0 < ncount a s.live then
        some ⟨s.next, removeOne a s.live, s.released, s.trace ++ [.unmap a]⟩
      else none
  | .intoInner a =>
      if 0 < ncount a s.live then
        some ⟨s.next, removeOne a s.live, a :: s.released, s.trace⟩
      else none

/-- Run a sequence of handle-level operations. -/
def hRun : HandleState → List HandleOp → Option HandleState
  | s, [] => some s
  | s, c :: cs => (hStep s c).bind (hRun · cs)

/-- `RootTable::new` (`src/sdt.rs:231-245`) compiled to handle
operations: `map_table` performs one `bridge.map` and wraps the result in
a local `Mapped` handle (`rsdt`/`xsdt`); that handle is dropped when the
`if` block ends — before `new` returns — running `Drop for Mapped`, i.e.
`bridge.unmap`.  `RootTable` itself stores only the raw `root_ptrs`
pointer and implements no `Drop`. -/
def rootTableNewOps : List HandleOp := [.mapHeader, .dropH 0]

/-!
## Trailing element counts (`src/sdt.rs:301-316`, `src/lib.rs:64-82`,
`src/sdt/rhct.rs:160-166`)

`header_dynamic_size::<T>` computes `(*header).length as usize -
size_of_unsized::<T>()`, and `from_header_ptr_slice_of::<T, S>` divides it
by `size_of::<T>()` to obtain the trailing slice length.  `size_of_unsized`
is a helper of this crate defined outside the files under `src/`;
modelled from the spec: it is "the fixed prefix size" of a dynamically
sized table type (§4.3: count = `(header.length − fixed_prefix_size) /
element_stride`), which for the `repr(C, packed)` types in `src/` is the
byte offset of the trailing slice field: 36 for `RootSdt<T>` (a `Header`),
44 for `Madt`, 56 for `Rhct`, 2 for the MADT `Unknown` record.
The same shape occurs in `src/lib.rs` (`get_table_ptrs`: `(table_len -
size_of::<Header>()) / size_of::<T>()`) and in `src/sdt/rhct.rs`
(`from_header_slice_of`: `((*header).len() - size_of_unsized::<N>()) /
size_of::<T>()`).  The subtraction is a plain `usize` subtraction — no
guard against the declared length being smaller than the prefix. -/
def header_dynamic_size (len pfx : Nat) : Nat := wsub len pfx

/-- Trailing slice length produced by `from_header_ptr_slice_of` /
`get_table_ptrs` / `from_header_slice_of`: the dynamic size divided by the
element stride. -/
def sliceLenOf (len pfx stride : Nat) : Nat := header_dynamic_size len pfx / stride

/-!
## The root table locator (`src/sdt.rs:187-269`)

`RootTable::new` reads `(*rsdp).revision` (one `u8` at byte offset 15 of
the `repr(C)` `Rsdp`) and, depending on `revision < 2`, maps the RSDT
(trailing array of `u32_le`) or the XSDT (trailing array of `u64_le`); the
`tables` slice pointer it stores has length `(root_header.length − 36) /
size_of::<T>()` via `from_header_ptr_slice_of`.  `RootPtrs::iter` visits
indices `0..len` in order, reading the `index`-th little-endian element.
These reads go through the `root_ptrs` pointer saved in `RootTable`; the
lifetime of that mapping is settled separately (claim about
`RootTable::new`'s drop of the temporary handle) — here memory is a total
function so the arithmetic and ordering can be stated. -/
inductive RootPtrs where
  | rsdt (base count : Nat)
  | xsdt (base count : Nat)
deriving DecidableEq, Repr

/-- `(*rsdp).revision` — byte offset 15 of the `repr(C)` `Rsdp`. -/
def rsdpRevision (mem : Nat → Nat) (rsdp : Nat) : Nat := readU8 mem (rsdp + 15)

/-- `(*rsdp).rsdt_addr` — `u32` at byte offset 16. -/
def rsdpRsdtAddr (mem : Nat → Nat) (rsdp : Nat) : Nat := readU32 mem (rsdp + 16)

/-- `(*rsdp).xsdt_addr` — `u64` at byte offset 24. -/
def rsdpXsdtAddr (mem : Nat → Nat) (rsdp : Nat) : Nat := readU64 mem (rsdp + 24)

/-- A table's `Header.length` field — `u32_le` at byte offset 4 of the
36-byte `repr(C, packed)` `Header`. -/
def headerLength (mem : Nat → Nat) (a : Nat) : Nat := readU32 mem (a + 4)

/-- A table's `Header.signature` field — the first 4 bytes. -/
def headerSignature (mem : Nat → Nat) (a : Nat) : List Nat :=
  [readU8 mem a, readU8 mem (a + 1), readU8 mem (a + 2), readU8 mem (a + 3)]

/-- The view of a table header yielded by `all_tables` (the fields the
signature lookup reads). -/
structure HeaderView where
  addr : Nat
  signature : List Nat
  length : Nat
deriving DecidableEq, Repr

/-- The header view at a physical address. -/
def headerAt (mem : Nat → Nat) (a : Nat) : HeaderView :=
  ⟨a, headerSignature mem a, headerLength mem a⟩

/-- `RootTable::new` (`src/sdt.rs:231-245`): revision `< 2` selects the
RSDT with 4-byte elements, otherwise the XSDT with 8-byte elements; the
stored slice length comes from `from_header_ptr_slice_of` with prefix 36
(`size_of_unsized::<RootSdt<T>>`). -/
def rootTableNew (mem : Nat → Nat) (rsdp : Nat) : RootPtrs :=
  if rsdpRevision mem rsdp < 2 then
    let base := rsdpRsdtAddr mem rsdp
    .rsdt base (sliceLenOf (headerLength mem base) 36 4)
  else
    let base := rsdpXsdtAddr mem rsdp
    .xsdt base (sliceLenOf (headerLength mem base) 36 8)

/-- The physical addresses visited by `RootPtrs::iter`
(`src/sdt.rs:201-213`) in array order: the trailing array starts right
after the 36-byte header, with 4- or 8-byte little-endian elements. -/
def rootPtrAddrs (mem : Nat → Nat) : RootPtrs → List Nat
  | .rsdt base count => (List.range count).map (fun i => readU32 mem (base + 36 + 4 * i))
  | .xsdt base count => (List.range count).map (fun i => readU64 mem (base + 36 + 8 * i))

/-- `RootTable::all_tables` (`src/sdt.rs:247-253`): one header view per
root-array entry, in array order. -/
def allTables (mem : Nat → Nat) (rsdp : Nat) : List HeaderView :=
  (rootPtrAddrs mem (rootTableNew mem rsdp)).map (headerAt mem)

/-- `RootTable::get_table_by_signature` (`src/sdt.rs:255-263`):
`all_tables().filter(|h| h.signature == signature).nth(index)`. -/
def getTableBySignature (mem : Nat → Nat) (rsdp : Nat) (sig : List Nat)
    (index : Nat) : Option HeaderView :=
  ((allTables mem rsdp).filter (fun h => decide (h.signature = sig))).get? index

/-!
## `Madt::entries` (`src/sdt/madt.rs:41-82`)

The walker runs over `self.ics : [u8]`, the trailing byte slice of the
`Madt` (`ics.len() = header.length − 44`).  Each step:

* `self.ics.get(offset..offset + 2)?` — stop (iterator terminal state)
  unless a full 2-byte sub-record header is in range;
* `self.ics.get(offset..offset + header.total_size)?` — stop unless the
  whole declared record is in range;
* `bytes[0]` — **panics** when `total_size = 0` (empty slice indexing);
* dispatch on the type tag: 15 recognised tags are cast to their record
  shapes (the entry keeps a reference to the record's first byte, no
  further bytes are read by the walker itself); any other tag builds the
  DST `Unknown { header, data: [u8] }` whose `data` length is
  `bytes.len() - size_of_unsized::<Unknown>()`, i.e. the `usize`
  subtraction `total_size - 2` — wrapping when `total_size < 2`.

All byte accesses of this walker go through bounds-checked slice `get`s
on `ics`, so it reads no byte outside the region by construction; the
only abnormal exits are the two panics above. -/
inductive MEntry where
  | known (tag off len : Nat)
  | unknown (off len dataLen : Nat)
deriving DecidableEq, Repr

/-- Record start offset of an entry (position of its sub-record header). -/
def MEntry.off : MEntry → Nat
  | .known _ o _ => o
  | .unknown o _ _ => o

/-- Declared total length (`total_size` / `len` byte) of an entry's
sub-record. -/
def MEntry.len : MEntry → Nat
  | .known _ _ l => l
  | .unknown _ l _ => l

/-- The type tags `Madt::entries` recognises
(`0x00`–`0x05`, `0x09`–`0x10`, `0x18`). -/
def entriesKnownTag (t : Nat) : Bool :=
  [0, 1, 2, 3, 4, 5, 9, 10, 11, 12, 13, 14, 15, 16, 24].contains t

/-- Outcome of one step of an iterator body. -/
inductive WStep (E : Type) where
  | yield (e : E) (next : Nat)
  | halted
  | panicked
  | fault
deriving DecidableEq, Repr

/-- The declared length of the sub-record at `o`: the byte at `o + 1`
(sub-record header: 1-byte type tag, 1-byte total length). -/
def subLenAt (ics : List Nat) (o : Nat) : Nat := ics.getD (o + 1) 0

/-- One step of `Madt::entries` at region offset `o` (see the section
comment for the line-by-line correspondence). -/
def entriesStep (ics : List Nat) (o : Nat) : WStep MEntry :=
  if ics.length < o + 2 then .halted
  else if ics.length < o + subLenAt ics o then .halted
  else if subLenAt ics o = 0 then .panicked
  else if entriesKnownTag (ics.getD o 0) then
    .yield (.known (ics.getD o 0) o (subLenAt ics o)) (o + subLenAt ics o)
  else .yield (.unknown o (subLenAt ics o) (wsub (subLenAt ics o) 2)) (o + subLenAt ics o)

/-- Iterate `entriesStep` up to `fuel` times from offset `o`, collecting
the yielded entries.  The second component records how the iteration
ended: `some false` — terminal state reached, `some true` — panicked,
`none` — `fuel` ran out with the iterator still running. -/
def entriesTrace (ics : List Nat) : Nat → Nat → List MEntry × Option Bool
  | _, 0 => ([], none)
  | o, fuel + 1 =>
    match entriesStep ics o with
    | .halted => ([], some false)
    | .panicked => ([], some true)
    | .fault => ([], some true)
    | .yield e o' =>
      let r := entriesTrace ics o' fuel
      (e :: r.1, r.2)

/-!
## `iter_madt` (`src/madt.rs:96-137`)

The free-standing walker runs over the raw table: `ptr` starts at
`madt + size_of::<Madt>()` (= byte 44) and `end = madt + header.length`.
Each step checks **only** `ptr >= end` before reading the 2-byte
sub-record header; there is no check that the header itself, or the
`header.len` bytes of the record, lie below `end`.  Recognised tags are
`0x00` (Local APIC: reads bytes `o+2`, `o+3`, and a `u32` at `o+4`) and
`0x18` (RISC-V INTC: reads the version byte at `o+2` and `assert!`s it to
be 1 — a panic otherwise — then a `u32` at `o+4`, a `u64` at `o+8` and a
`u32` at `o+16`); any other tag yields `Entry::Unknown(kind, data)` where
`data` is a raw slice pointer of length `header.len` starting at the
record's first byte.  Then `ptr = ptr.add(header.len)`.

The mapped span of the table is the byte list `tbl`; a read outside it is
a fault (`.fault`). -/
inductive IEntry where
  | localApic (off uid id flags : Nat)
  | riscvIntc (off uid hartid flags : Nat)
  | unknown (off kind len : Nat)
deriving DecidableEq, Repr

/-- Record start offset (position of the sub-record header) of an
`iter_madt` entry. -/
def IEntry.off : IEntry → Nat
  | .localApic o _ _ _ => o
  | .riscvIntc o _ _ _ => o
  | .unknown o _ _ => o

/-- Declared record length of an `iter_madt` entry, as far as the walker
uses it (`ptr.add(header.len)`); for the two decoded shapes the walker
still advances by `header.len`, which we record here. -/
def IEntry.len (tbl : List Nat) : IEntry → Nat
  | .localApic o _ _ _ => tbl.getD (o + 1) 0
  | .riscvIntc o _ _ _ => tbl.getD (o + 1) 0
  | .unknown _ _ l => l

/-- `end` of the `iter_madt` walk: `(*madt).header.length` (the `length`
field is read through the already-mapped fixed prefix). -/
def iterEnd (tbl : List Nat) : Nat := readU32L tbl 4

/-- One step of `iter_madt` at table offset `o` (see the section comment
for the line-by-line correspondence). -/
def iterStep (tbl : List Nat) (o : Nat) : WStep IEntry :=
  if iterEnd tbl ≤ o then .halted
  else
    match readB tbl o, readB tbl (o + 1) with
    | some kind, some len =>
      if kind = 0 then
        match readB tbl (o + 2), readB tbl (o + 3), readU32C tbl (o + 4) with
        | some uid, some id, some fl => .yield (.localApic o uid id fl) (o + len)
        | _, _, _ => .fault
      else if kind = 24 then
        match readB tbl (o + 2), readU32C tbl (o + 4), readU64C tbl (o + 8),
            readU32C tbl (o + 16) with
        | some v, some fl, some hid, some uid =>
          if v = 1 then .yield (.riscvIntc o uid hid fl) (o + len) else .panicked
        | _, _, _, _ => .fault
      else .yield (.unknown o kind len) (o + len)
    | _, _ => .fault

/-- How an `iter_madt` run ended. -/
inductive IOut where
  | halted
  | panicked
  | fault
deriving DecidableEq, Repr

/-- Iterate `iterStep` up to `fuel` times from offset `o`. `none` in the
second component means the fuel ran out with the iterator still
running. -/
def iterTrace (tbl : List Nat) : Nat → Nat → List IEntry × Option IOut
  | _, 0 => ([], none)
  | o, fuel + 1 =>
    match iterStep tbl o with
    | .halted => ([], some .halted)
    | .panicked => ([], some .panicked)
    | .fault => ([], some .fault)
    | .yield e o' =>
      let r := iterTrace tbl o' fuel
      (e :: r.1, r.2)

/-- The `iter_madt` iterator, started at `madt + size_of::<Madt>()`
(byte offset 44), reaches its terminal state (or aborts) after finitely
many yielded records. -/
def IterMadtHalts (tbl : List Nat) : Prop :=
  ∃ fuel, ((iterTrace tbl 44 fuel).2).isSome

/-!
## `Rhct` (`src/sdt/rhct.rs`)

`Rhct` is `repr(C, packed)`: 36-byte `Header`, `flags: u32` (36), `time_base_frequency: u64` (40), `nodes_len: u32` (48), `nodes_offset: u32` (52), then `nodes: [u8]` at byte 56.  `from_header_ptr` gives `nodes` the length `header.length − 56` (`from_header_ptr_slice_of::<u8>` with `size_of_unsized::<Rhct>() = 56` — wrapping like every other site).

`Rhct::get_node(offset)` (`src/sdt/rhct.rs:72-80`):

* `offset - size_of_unsized::<Self>()` — `usize` subtraction rebasing the
  table-relative offset onto `nodes` (wrapping when `offset < 56`);
* `self.nodes.get(offset..)?` — `none` unless `rel ≤ nodes.len()`
  (note: `rel = nodes.len()` **passes**, producing an empty tail slice);
* `&*...cast::<Header>()` and `node.len()` — reads the 6-byte node header
  (`type: u16, len: u16, revision: u16`) at the tail's first byte, with
  **no check** that those bytes are below the end of the table: when
  `rel + 4 > ` the mapped length, the `len` field read is past the mapped
  span (a fault, `none` here);
* `self.nodes.get(offset..offset + node.len())?` — `none` when the full
  node is not in range;
* otherwise a pointer to the node with provenance over `len` bytes.

The result type is `Option (Option _)`: the outer `none` models a read
past the mapped table (undefined behaviour in the real program), `some
none` is `get_node` cleanly returning `None`, and `some (some (abs, len))`
is a successful lookup at absolute table offset `abs`. -/
def rhctNodesSliceLen (tbl : List Nat) : Nat := wsub (readU32L tbl 4) 56

/-- `Rhct::get_node` (see section comment). -/
def getNode (tbl : List Nat) (off : Nat) : Option (Option (Nat × Nat)) :=
  let rel := wsub off 56
  if rhctNodesSliceLen tbl < rel then some none
  else
    match readU16C tbl (56 + rel + 2) with
    | none => none
    | some l =>
      if rhctNodesSliceLen tbl < rel + l then some none
      else some (some (56 + rel, l))

/-- `(*self).nodes_len` — `u32` at byte 48 of the mapped prefix. -/
def rhctNodesLenF (tbl : List Nat) : Nat := readU32L tbl 48

/-- `(*self).nodes_offset` — `u32` at byte 52 of the mapped prefix. -/
def rhctNodesOffsetF (tbl : List Nat) : Nat := readU32L tbl 52

/-- A node as seen by the `Rhct::nodes` walk: absolute table offset, node
type tag, declared node length. -/
structure NodeView where
  off : Nat
  ty : Nat
  len : Nat
deriving DecidableEq, Repr

/-- All nodes visited by the `(0..nodes_len)` walk of `Rhct::nodes`
(`src/sdt/rhct.rs:83-94`), before the `HART_INFO` filtering: at each of
the `count` iterations the closure runs `get_node(offset)?` — a `None`
makes `filter_map` skip this iteration (offset unchanged) and continue —
then advances `offset` by `(*header).len()` and inspects
`(*header).r#type` (the `u16` at the node's first two bytes, in range
because `get_node` already read bytes 2..4 of the node).  The outer
`none` propagates a read past the mapped table from `get_node`. -/
def rhctWalkAux (tbl : List Nat) : Nat → Nat → Option (List NodeView)
  | _, 0 => some []
  | off, count + 1 =>
    match getNode tbl off with
    | none => none
    | some none => rhctWalkAux tbl off count
    | some (some (abs, l)) =>
      (rhctWalkAux tbl (off + l) count).map
        (fun rest => ⟨abs, tbl.getD abs 0 + 256 * tbl.getD (abs + 1) 0, l⟩ :: rest)

/-- `Rhct::nodes` as written: the same walk, but yielding only the nodes
whose `r#type == NodeType::HART_INFO` (65535); all other node types are
skipped by the `if`'s `None` branch. -/
def rhctNodesAux (tbl : List Nat) : Nat → Nat → Option (List NodeView)
  | _, 0 => some []
  | off, count + 1 =>
    match getNode tbl off with
    | none => none
    | some none => rhctNodesAux tbl off count
    | some (some (abs, l)) =>
      (rhctNodesAux tbl (off + l) count).map
        (fun rest =>
          if tbl.getD abs 0 + 256 * tbl.getD (abs + 1) 0 = 65535 then
            ⟨abs, tbl.getD abs 0 + 256 * tbl.getD (abs + 1) 0, l⟩ :: rest
          else rest)

/-- The full walk of `Rhct::nodes`, started at `nodes_offset` and bounded
by `nodes_len` iterations. -/
def rhctWalk (tbl : List Nat) : Option (List NodeView) :=
  rhctWalkAux tbl (rhctNodesOffsetF tbl) (rhctNodesLenF tbl)

/-- `Rhct::nodes`, started at `nodes_offset` and bounded by `nodes_len`
iterations. -/
def rhctNodes (tbl : List Nat) : Option (List NodeView) :=
  rhctNodesAux tbl (rhctNodesOffsetF tbl) (rhctNodesLenF tbl)

/-!
## Concrete firmware images used as witnesses and counterexamples
-/

/-- A 36-byte SDT header as a byte list: 4-byte signature, `u32_le`
length, then 28 bytes of revision/checksum/OEM/creator fields (zeroed —
none of the embedded algorithms read them). -/
def mkHeader (sig : List Nat) (len : Nat) : List Nat :=
  sig ++ [len % 256, len / 256 % 256, len / 65536 % 256, len / 16777216 % 256] ++
    List.replicate 28 0

/-- An MADT whose single sub-record declares total length 0 (type tag
`0x7F`): total table length 46 = 44-byte fixed prefix + 2-byte record. -/
def madtLoopTbl : List Nat :=
  mkHeader [65, 80, 73, 67] 46 ++ List.replicate 8 0 ++ [127, 0]

/-- An MADT whose single sub-record (type tag `0x7F`) declares total
length 200, far past the container's declared length 46. -/
def madtOverTbl : List Nat :=
  mkHeader [65, 80, 73, 67] 46 ++ List.replicate 8 0 ++ [127, 200]

/-- A well-formed MADT: one 2-byte sub-record of unknown type `0x7F`
declaring total length 2; container length 46. -/
def madtOkTbl : List Nat :=
  mkHeader [65, 80, 73, 67] 46 ++ List.replicate 8 0 ++ [127, 2]

/-- The `ics` sub-record region of an MADT holding one unknown-type
record of declared length 2. -/
def icsOk : List Nat := [127, 2]

/-- An `ics` sub-record region holding one unknown-type record declaring
total length 1 — less than the 2-byte sub-record header itself. -/
def icsShort : List Nat := [127, 1, 0]

/-- An RHCT of declared total length 62: 56-byte fixed prefix
(`nodes_len = 1`, `nodes_offset = 56`) and one 6-byte `HART_INFO` node. -/
def rhctTbl : List Nat :=
  mkHeader [82, 72, 67, 84] 62 ++ List.replicate 12 0 ++ [1, 0, 0, 0] ++
    [56, 0, 0, 0] ++ [255, 255, 6, 0, 1, 0]

/-- An RHCT of declared total length 70: 56-byte fixed prefix
(`nodes_len = 2`, `nodes_offset = 56`), an 8-byte `ISA_STRING` node
(type 0) followed by a 6-byte `HART_INFO` node (type 65535). -/
def rhctTbl2 : List Nat :=
  mkHeader [82, 72, 67, 84] 70 ++ List.replicate 12 0 ++ [2, 0, 0, 0] ++
    [56, 0, 0, 0] ++ [0, 0, 8, 0, 1, 0, 65, 66] ++ [255, 255, 6, 0, 1, 0]

/-- A little physical memory image: an `Rsdp` (revision 0,
`rsdt_addr = 40`) at address 0, an RSDT of length 44 (36-byte header +
two 4-byte pointers, to 100 and 140) at address 40, an `"APIC"` table at
address 100 and an `"FACP"` table at address 140 — the spec's
`get_table_by_signature` scenario. -/
def memBytes : List Nat :=
  List.replicate 16 0 ++ [40, 0, 0, 0] ++ List.replicate 20 0 ++
    mkHeader [82, 83, 68, 84] 44 ++ [100, 0, 0, 0] ++ [140, 0, 0, 0] ++
    List.replicate 16 0 ++ mkHeader [65, 80, 73, 67] 36 ++ List.replicate 4 0 ++
    mkHeader [70, 65, 67, 80] 36

/-- The memory image as a total physical-memory function. -/
def memEx : Nat → Nat := fun a => memBytes.getD a 0



/-- The resource-accounting invariant of the handle model: every mapping
ever established (a `map`/`remap` call) is accounted for by exactly one
of: an `unmap` call, a live handle owning it, or an `into_inner` release;
a given address identifies at most one `map`/`remap` call; and the
fresh-address counter dominates every address in use. -/
def HandleInv (s : HandleState) : Prop :=
  (∀ a, mrCount s.trace a = umCount s.trace a + ncount a s.live + ncount a s.released) ∧
  (∀ a, s.next ≤ a → mrCount s.trace a = 0) ∧
  (∀ a, mrCount s.trace a ≤ 1) ∧
  (∀ a, s.next ≤ a → ncount a s.live = 0) ∧
  (∀ a, s.next ≤ a → ncount a s.released = 0)

theorem ncount_removeOne_self (b : Nat) (l : List Nat) (h : 0 < ncount b l) :
    ncount b (removeOne b l) + 1 = ncount b l := by
  induction l with
  | nil => simp [ncount] at h
  | cons c t ih =>
    by_cases hc : c = b
    · subst hc
      simp [ncount, removeOne] <;> omega
    · simp [ncount, removeOne, hc] at h ⊢
      exact ih h

theorem ncount_removeOne_ne (a b : Nat) (l : List Nat) (h : a ≠ b) :
    ncount a (removeOne b l) = ncount a l := by
  induction l with
  | nil => simp [removeOne]
  | cons c t ih =>
    by_cases hc : c = b
    · subst hc
      simp [ncount, removeOne, Ne.symm h]
    · simp [ncount, removeOne, hc, ih]

theorem ncount_removeOne_le (a b : Nat) (l : List Nat) :
    ncount a (removeOne b l) ≤ ncount a l := by
  induction l with
  | nil => simp [removeOne]
  | cons c t ih =>
    by_cases hc : c = b
    · subst hc
      simp [ncount, removeOne] <;> omega
    · simp [ncount, removeOne, hc] <;> omega

theorem mrCount_snoc_map (t : List BridgeEv) (b a : Nat) :
    mrCount (t ++ [.map b]) a = mrCount t a + (if b = a then 1 else 0) := by
  induction t with
  | nil => simp [mrCount]
  | cons e r ih => cases e <;> simp [mrCount, ih] <;> omega

theorem mrCount_snoc_remap (t : List BridgeEv) (b a : Nat) :
    mrCount (t ++ [.remap b]) a = mrCount t a + (if b = a then 1 else 0) := by
  induction t with
  | nil => simp [mrCount]
  | cons e r ih => cases e <;> simp [mrCount, ih] <;> omega

theorem mrCount_snoc_unmap (t : List BridgeEv) (b a : Nat) :
    mrCount (t ++ [.unmap b]) a = mrCount t a := by
  induction t with
  | nil => simp [mrCount]
  | cons e r ih => cases e <;> simp [mrCount, ih]

theorem umCount_snoc_map (t : List BridgeEv) (b a : Nat) :
    umCount (t ++ [.map b]) a = umCount t a := by
  induction t with
  | nil => simp [umCount]
  | cons e r ih => cases e <;> simp [umCount, ih]

theorem umCount_snoc_remap (t : List BridgeEv) (b a : Nat) :
    umCount (t ++ [.remap b]) a = umCount t a := by
  induction t with
  | nil => simp [umCount]
  | cons e r ih => cases e <;> simp [umCount, ih]

theorem umCount_snoc_unmap (t : List BridgeEv) (b a : Nat) :
    umCount (t ++ [.unmap b]) a = umCount t a + (if b = a then 1 else 0) := by
  induction t with
  | nil => simp [umCount]
  | cons e r ih => cases e <;> simp [umCount, ih] <;> omega

theorem hStep_inv (s s' : HandleState) (c : HandleOp) (hinv : HandleInv s)
    (h : hStep s c = some s') : HandleInv s' := by
  obtain ⟨heq, hfresh, hone, hlive, hrel⟩ := hinv
  cases c with
  | mapHeader =>
    simp only [hStep, Option.some.injEq] at h
    subst h
    refine ⟨?_, ?_, ?_, ?_, ?_⟩ <;> intro a <;> dsimp only
    · have h1 := heq a
      rw [mrCount_snoc_map, umCount_snoc_map]
      by_cases hna : s.next = a <;> simp [ncount, hna] <;> omega
    · intro ha
      have h1 := hfresh a (by omega)
      rw [mrCount_snoc_map]
      have hna : s.next ≠ a := by omega
      simp [hna] <;> omega
    · rw [mrCount_snoc_map]
      by_cases hna : s.next = a
      · have h1 := hfresh a (by omega)
        simp [hna] at h1 ⊢ <;> omega
      · have h1 := hone a
        simp [hna] <;> omega
    · intro ha
      have h1 := hlive a (by omega)
      have hna : s.next ≠ a := by omega
      simp [ncount, hna] <;> omega
    · intro ha
      exact hrel a (by omega)
  | cloneHeader a0 =>
    simp only [hStep] at h
    split at h
    case isFalse => exact absurd h (by simp)
    case isTrue hg =>
    simp only [Option.some.injEq] at h
    subst h
    refine ⟨?_, ?_, ?_, ?_, ?_⟩ <;> intro a <;> dsimp only
    · have h1 := heq a
      rw [mrCount_snoc_remap, umCount_snoc_remap]
      by_cases hna : s.next = a <;> simp [ncount, hna] <;> omega
    · intro ha
      have h1 := hfresh a (by omega)
      rw [mrCount_snoc_remap]
      have hna : s.next ≠ a := by omega
      simp [hna] <;> omega
    · rw [mrCount_snoc_remap]
      by_cases hna : s.next = a
      · have h1 := hfresh a (by omega)
        simp [hna] at h1 ⊢ <;> omega
      · have h1 := hone a
        simp [hna] <;> omega
    · intro ha
      have h1 := hlive a (by omega)
      have hna : s.next ≠ a := by omega
      simp [ncount, hna] <;> omega
    · intro ha
      exact hrel a (by omega)
  | mapFull a0 =>
    simp only [hStep] at h
    split at h
    case isFalse => exact absurd h (by simp)
    case isTrue hg =>
    simp only [Option.some.injEq] at h
    subst h
    have ha0next : a0 < s.next := by
      by_contra hc
      have := hlive a0 (by omega)
      omega
    refine ⟨?_, ?_, ?_, ?_, ?_⟩ <;> intro a <;> dsimp only
    · have h1 := heq a
      rw [show s.trace ++ [BridgeEv.remap s.next, BridgeEv.unmap a0] =
          (s.trace ++ [BridgeEv.remap s.next]) ++ [BridgeEv.unmap a0] from by simp,
        mrCount_snoc_unmap, mrCount_snoc_remap, umCount_snoc_unmap, umCount_snoc_remap]
      by_cases hra : a = a0
      · subst hra
        have hrm := ncount_removeOne_self a s.live hg
        have hna : s.next ≠ a := by omega
        simp [ncount, hna] <;> omega
      · have hrm := ncount_removeOne_ne a a0 s.live hra
        have hne : a0 ≠ a := Ne.symm hra
        by_cases hna : s.next = a <;> simp [ncount, hna, hne, hrm] <;> omega
    · intro ha
      have h1 := hfresh a (by omega)
      rw [show s.trace ++ [BridgeEv.remap s.next, BridgeEv.unmap a0] =
          (s.trace ++ [BridgeEv.remap s.next]) ++ [BridgeEv.unmap a0] from by simp,
        mrCount_snoc_unmap, mrCount_snoc_remap]
      have hna : s.next ≠ a := by omega
      simp [hna] <;> omega
    · rw [show s.trace ++ [BridgeEv.remap s.next, BridgeEv.unmap a0] =
          (s.trace ++ [BridgeEv.remap s.next]) ++ [BridgeEv.unmap a0] from by simp,
        mrCount_snoc_unmap, mrCount_snoc_remap]
      by_cases hna : s.next = a
      · have h1 := hfresh a (by omega)
        simp [hna] at h1 ⊢ <;> omega
      · have h1 := hone a
        simp [hna] <;> omega
    · intro ha
      have h1 := hlive a (by omega)
      have h3 := ncount_removeOne_le a a0 s.live
      have hna : s.next ≠ a := by omega
      simp [ncount, hna] <;> omega
    · intro ha
      exact hrel a (by omega)
  | dropH a0 =>
    simp only [hStep] at h
    split at h
    case isFalse => exact absurd h (by simp)
    case isTrue hg =>
    simp only [Option.some.injEq] at h
    subst h
    refine ⟨?_, ?_, ?_, ?_, ?_⟩ <;> intro a <;> dsimp only
    · have h1 := heq a
      rw [mrCount_snoc_unmap, umCount_snoc_unmap]
      by_cases hra : a = a0
      · subst hra
        have hrm := ncount_removeOne_self a s.live hg
        simp <;> omega
      · have hrm := ncount_removeOne_ne a a0 s.live hra
        have hne : a0 ≠ a := Ne.symm hra
        simp [hne, hrm] <;> omega
    · intro ha
      rw [mrCount_snoc_unmap]
      exact hfresh a ha
    · rw [mrCount_snoc_unmap]
      exact hone a
    · intro ha
      have h3 := ncount_removeOne_le a a0 s.live
      have h1 := hlive a ha
      omega
    · intro ha
      exact hrel a ha
  | intoInner a0 =>
    simp only [hStep] at h
    split at h
    case isFalse => exact absurd h (by simp)
    case isTrue hg =>
    simp only [Option.some.injEq] at h
    subst h
    have ha0next : a0 < s.next := by
      by_contra hc
      have := hlive a0 (by omega)
      omega
    refine ⟨?_, ?_, ?_, ?_, ?_⟩ <;> intro a <;> dsimp only
    · have h1 := heq a
      by_cases hra : a = a0
      · subst hra
        have hrm := ncount_removeOne_self a s.live hg
        simp [ncount] <;> omega
      · have hrm := ncount_removeOne_ne a a0 s.live hra
        have hne : a0 ≠ a := Ne.symm hra
        simp [ncount, hne, hrm] <;> omega
    · intro ha
      exact hfresh a ha
    · exact hone a
    · intro ha
      have h3 := ncount_removeOne_le a a0 s.live
      have h1 := hlive a ha
      omega
    · intro ha
      have h1 := hrel a ha
      have hne : a0 ≠ a := by omega
      simp [ncount, hne] <;> omega

theorem hRun_inv (ops : List HandleOp) (s0 s : HandleState) (hinv : HandleInv s0)
    (h : hRun s0 ops = some s) : HandleInv s := by
  induction ops generalizing s0 with
  | nil =>
    simp [hRun] at h
    exact h ▸ hinv
  | cons c cs ih =>
    simp only [hRun, Option.bind_eq_bind] at h
    cases hc : hStep s0 c with
    | none => rw [hc] at h; simp at h
    | some s1 =>
      rw [hc] at h
      simp only [Option.some_bind] at h
      exact ih s1 (hStep_inv s0 s1 c hinv hc) h

theorem hInit_inv : HandleInv hInit := by
  refine ⟨?_, ?_, ?_, ?_, ?_⟩ <;> intro a <;> simp [hInit, mrCount, umCount, ncount]

/-- C1.  Across any sequence of library operations — `RootTable::new`
(which compiles to `mapHeader` followed by `dropH` of the temporary
handle), `all_tables` / `get_table_by_signature` / `get_table` (which
compile to sequences of `mapHeader`, `cloneHeader`, `mapFull` and handle
drops), `Mapped::map_full`, `Mapped::clone`/`clone_header`, and handle
drops — once every handle has been dropped or consumed, every successful
`map`/`remap` call on the Bridge is balanced by exactly one `unmap` call
(issued by the `Drop` of the handle owning that mapping, which is the only
place the model emits `unmap` for a live handle), while a mapping whose
handle was given up via `into_inner` receives no `unmap` at all. -/
theorem c1_map_unmap_balance (ops : List HandleOp) (s : HandleState)
    (hrun : hRun hInit ops = some s) (hdone : s.live = []) :
    ∀ a, mrCount s.trace a ≤ 1 ∧
      (ncount a s.released = 0 → umCount s.trace a = mrCount s.trace a) ∧
      (0 < ncount a s.released → mrCount s.trace a = 1 ∧ umCount s.trace a = 0) := by
  obtain ⟨heq, _, hone, _, _⟩ := hRun_inv ops hInit s hInit_inv hrun
  intro a
  have h1 := heq a
  have h2 := hone a
  rw [hdone] at h1
  simp only [ncount] at h1
  refine ⟨h2, ?_, ?_⟩ <;> intro h3 <;> omega

/-- C1 witness: the run `map_header; clone_header; map_full; drop;
into_inner` — one `map` and two `remap`s, of which the `into_inner`'d
first mapping gets no `unmap` and the other two get exactly one each. -/
theorem c1_map_unmap_balance_witness :
    mrCount [BridgeEv.map 0, BridgeEv.remap 1, BridgeEv.remap 2,
      BridgeEv.unmap 1, BridgeEv.unmap 2] 2 ≤ 1 ∧
      umCount [BridgeEv.map 0, BridgeEv.remap 1, BridgeEv.remap 2,
        BridgeEv.unmap 1, BridgeEv.unmap 2] 2 =
        mrCount [BridgeEv.map 0, BridgeEv.remap 1, BridgeEv.remap 2,
          BridgeEv.unmap 1, BridgeEv.unmap 2] 2 ∧
      mrCount [BridgeEv.map 0, BridgeEv.remap 1, BridgeEv.remap 2,
        BridgeEv.unmap 1, BridgeEv.unmap 2] 0 = 1 ∧
      umCount [BridgeEv.map 0, BridgeEv.remap 1, BridgeEv.remap 2,
        BridgeEv.unmap 1, BridgeEv.unmap 2] 0 = 0 := by
  have hrun : hRun hInit [.mapHeader, .cloneHeader 0, .mapFull 1, .dropH 2, .intoInner 0]
      = some ⟨3, [], [0], [BridgeEv.map 0, BridgeEv.remap 1, BridgeEv.remap 2,
        BridgeEv.unmap 1, BridgeEv.unmap 2]⟩ := by decide
  have h := c1_map_unmap_balance _ _ hrun rfl
  exact ⟨(h 2).1, (h 2).2.1 (by decide), ((h 0).2.2 (by decide)).1, ((h 0).2.2 (by decide)).2⟩

/-- C2.  Evaluation of the `RootTable::new` compilation: the `bridge.map`
call for the root table (the RSDT/XSDT whose trailing array becomes
`root_ptrs`) is followed by its `bridge.unmap` *within* `new` itself —
the temporary `Mapped` handle created by `map_table` is dropped when the
`if` block of `RootTable::new` ends — and no live handle survives into
the returned `RootTable` (which stores only the raw pointer and has no
`Drop` impl).  Every later read of the root pointer array by
`all_tables`/`get_table_by_signature` therefore dereferences memory whose
mapping has already been released, contradicting the claim that the
array's unmap is issued only when the `RootTable` is dropped. -/
theorem c2_root_array_unmapped_in_new :
    hRun hInit rootTableNewOps =
      some ⟨1, [], [], [BridgeEv.map 0, BridgeEv.unmap 0]⟩ := by decide

/-- C9 counterexample: a declared length of 35 — one byte short of the
36-byte header prefix — does not yield zero elements: the `usize`
subtraction in `header_dynamic_size` wraps and
`from_header_ptr_slice_of::<u32_le, RootSdt<u32_le>>` produces the huge
element count `(2^64 − 1) / 4`. -/
theorem c9_counterexample :
    sliceLenOf 35 36 4 = 4611686018427387903 ∧ sliceLenOf 35 36 4 ≠ 0 := by
  constructor
  · rfl
  · decide

/-- C9 (amended).  Deriving a trailing element count
(`header_dynamic_size` / `from_header_ptr_slice_of` in `src/sdt.rs`,
`get_table_ptrs` in `src/lib.rs`, `from_header_slice_of` in
`src/sdt/rhct.rs`) computes `(len − prefix) / stride` only when the
declared length is at least the fixed prefix size; when it is shorter,
the unguarded `usize` subtraction wraps modulo `2^64` and the count is
`(2^64 − (prefix − len)) / stride` — wrapping arithmetic, not a
malformed-data condition yielding no elements. -/
theorem c9_underflow_wraps (len pfx stride : Nat) :
    (pfx ≤ len → sliceLenOf len pfx stride = (len - pfx) / stride) ∧
    (len < pfx → sliceLenOf len pfx stride = (usizeSize - (pfx - len)) / stride) := by
  constructor <;> intro h
  · simp [sliceLenOf, header_dynamic_size, wsub, h]
  · simp [sliceLenOf, header_dynamic_size, wsub, Nat.not_le.mpr h]

/-- C9 witness: a legacy root table of declared length 44 holds
`(44 − 36) / 4 = 2` pointers; declared length 35 wraps to
`(2^64 − 1) / 8` for an 8-byte stride. -/
theorem c9_underflow_wraps_witness :
    sliceLenOf 44 36 4 = (44 - 36) / 4 ∧
      sliceLenOf 35 36 8 = (usizeSize - 1) / 8 :=
  ⟨(c9_underflow_wraps 44 36 4).1 (by decide),
   (c9_underflow_wraps 35 36 8).2 (by decide)⟩

/-- C6.  `RootTable::new` branches once on the RSDP revision: revision
`< 2` selects the RSDT, whose trailing array is read as 32-bit
little-endian physical addresses with element count
`(root_header.length − 36) / 4`; revision `≥ 2` selects the XSDT with
64-bit elements and divisor 8.  The stored `RootPtrs` variant fixes the
element width, and `all_tables` visits exactly the array's addresses in
array order (index `i` reads the little-endian element at
`base + 36 + stride·i`). -/
theorem c6_root_variant_count_order (mem : Nat → Nat) (rsdp : Nat) :
    (rsdpRevision mem rsdp < 2 →
      rootTableNew mem rsdp =
        .rsdt (rsdpRsdtAddr mem rsdp)
          (sliceLenOf (headerLength mem (rsdpRsdtAddr mem rsdp)) 36 4) ∧
      (36 ≤ headerLength mem (rsdpRsdtAddr mem rsdp) →
        sliceLenOf (headerLength mem (rsdpRsdtAddr mem rsdp)) 36 4 =
          (headerLength mem (rsdpRsdtAddr mem rsdp) - 36) / 4) ∧
      allTables mem rsdp =
        (List.range (sliceLenOf (headerLength mem (rsdpRsdtAddr mem rsdp)) 36 4)).map
          (fun i => headerAt mem (readU32 mem (rsdpRsdtAddr mem rsdp + 36 + 4 * i)))) ∧
    (2 ≤ rsdpRevision mem rsdp →
      rootTableNew mem rsdp =
        .xsdt (rsdpXsdtAddr mem rsdp)
          (sliceLenOf (headerLength mem (rsdpXsdtAddr mem rsdp)) 36 8) ∧
      (36 ≤ headerLength mem (rsdpXsdtAddr mem rsdp) →
        sliceLenOf (headerLength mem (rsdpXsdtAddr mem rsdp)) 36 8 =
          (headerLength mem (rsdpXsdtAddr mem rsdp) - 36) / 8) ∧
      allTables mem rsdp =
        (List.range (sliceLenOf (headerLength mem (rsdpXsdtAddr mem rsdp)) 36 8)).map
          (fun i => headerAt mem (readU64 mem (rsdpXsdtAddr mem rsdp + 36 + 8 * i)))) := by
  constructor <;> intro hrev
  · have hcond : rsdpRevision mem rsdp < 2 := hrev
    refine ⟨by simp [rootTableNew, hcond], ?_, ?_⟩
    · intro hlen
      simp [sliceLenOf, header_dynamic_size, wsub, hlen]
    · simp [allTables, rootTableNew, hcond, rootPtrAddrs, List.map_map]
  · have hcond : ¬ rsdpRevision mem rsdp < 2 := by omega
    refine ⟨by simp [rootTableNew, hcond], ?_, ?_⟩
    · intro hlen
      simp [sliceLenOf, header_dynamic_size, wsub, hlen]
    · simp [allTables, rootTableNew, hcond, rootPtrAddrs, List.map_map]

/-- C6 witness: on the concrete image (revision 0, RSDT at 40 of length
44) the locator picks the 32-bit variant with `(44 − 36) / 4 = 2`
entries. -/
theorem c6_root_variant_count_order_witness :
    rootTableNew memEx 0 =
      .rsdt (rsdpRsdtAddr memEx 0)
        (sliceLenOf (headerLength memEx (rsdpRsdtAddr memEx 0)) 36 4) ∧
    sliceLenOf (headerLength memEx (rsdpRsdtAddr memEx 0)) 36 4 =
      (headerLength memEx (rsdpRsdtAddr memEx 0) - 36) / 4 := by
  have h := (c6_root_variant_count_order memEx 0).1 (by decide)
  exact ⟨h.1, h.2.1 (by decide)⟩

/-- C7.  `get_table_by_signature(signature, index)` is exactly the
`index`-th element (0-based) of `all_tables()` filtered by exact 4-byte
signature equality: every returned header's signature equals the request,
the result is `none` precisely when fewer than `index + 1` tables match,
and the filtered sequence is a subsequence of `all_tables()` (so matches
come in root-pointer-array order). -/
theorem c7_get_table_by_signature (mem : Nat → Nat) (rsdp : Nat) (sig : List Nat)
    (index : Nat) :
    getTableBySignature mem rsdp sig index =
      ((allTables mem rsdp).filter (fun h => decide (h.signature = sig))).get? index ∧
    (∀ h, getTableBySignature mem rsdp sig index = some h → h.signature = sig) ∧
    (getTableBySignature mem rsdp sig index = none ↔
      ((allTables mem rsdp).filter (fun h => decide (h.signature = sig))).length ≤ index) ∧
    List.Sublist ((allTables mem rsdp).filter (fun h => decide (h.signature = sig)))
      (allTables mem rsdp) := by
  refine ⟨rfl, ?_, ?_, List.filter_sublist _⟩
  · intro h hsome
    have hmem := List.get?_mem hsome
    have := List.mem_filter.mp hmem
    exact of_decide_eq_true this.2
  · exact List.get?_eq_none

/-- C7 witness: on the concrete image (RSDT of length 44 pointing at an
`"APIC"` then an `"FACP"` table), requesting `"APIC"` at index 0 returns
the APIC header and requesting it at index 1 returns `none`. -/
theorem c7_get_table_by_signature_witness :
    getTableBySignature memEx 0 [65, 80, 73, 67] 1 = none ∧
    (headerAt memEx 100).signature = [65, 80, 73, 67] :=
  ⟨(c7_get_table_by_signature memEx 0 [65, 80, 73, 67] 1).2.2.1.mpr (by decide),
   (c7_get_table_by_signature memEx 0 [65, 80, 73, 67] 0).2.1 (headerAt memEx 100)
     (by decide)⟩


theorem entriesStep_yield (ics : List Nat) (o : Nat) (e : MEntry) (o2 : Nat)
    (h : entriesStep ics o = .yield e o2) :
    o + 2 ≤ ics.length ∧ 1 ≤ subLenAt ics o ∧ o + subLenAt ics o ≤ ics.length ∧
      o2 = o + subLenAt ics o ∧ e.off = o ∧ e.len = subLenAt ics o := by
  unfold entriesStep at h
  split at h
  · exact absurd h (by simp)
  · split at h
    · exact absurd h (by simp)
    · split at h
      · exact absurd h (by simp)
      · split at h
        · injection h with h1 h2
          subst h1 h2
          simp_all [MEntry.off, MEntry.len]
          omega
        · injection h with h1 h2
          subst h1 h2
          simp_all [MEntry.off, MEntry.len]
          omega

theorem entriesTrace_halts (ics : List Nat) :
    ∀ f o, ics.length + 1 ≤ f + o → 1 ≤ f → ((entriesTrace ics o f).2).isSome := by
  intro f
  induction f with
  | zero => intro o h1 h2; omega
  | succ f ih =>
    intro o h1 _
    cases hs : entriesStep ics o with
    | halted => simp [entriesTrace, hs]
    | panicked => simp [entriesTrace, hs]
    | fault => simp [entriesTrace, hs]
    | yield e o2 =>
      obtain ⟨hb1, hb2, hb3, hb4, _, _⟩ := entriesStep_yield ics o e o2 hs
      have : ((entriesTrace ics o2 f).2).isSome := ih o2 (by omega) (by omega)
      simp [entriesTrace, hs, this]

theorem entries_mem_sound (ics : List Nat) :
    ∀ f o e, e ∈ (entriesTrace ics o f).1 →
      e.off + 2 ≤ ics.length ∧ e.off + e.len ≤ ics.length ∧ 1 ≤ e.len := by
  intro f
  induction f with
  | zero => intro o e h; simp [entriesTrace] at h
  | succ f ih =>
    intro o e h
    cases hs : entriesStep ics o with
    | halted => simp [entriesTrace, hs] at h
    | panicked => simp [entriesTrace, hs] at h
    | fault => simp [entriesTrace, hs] at h
    | yield e2 o2 =>
      simp only [entriesTrace, hs, List.mem_cons] at h
      rcases h with rfl | h
      · obtain ⟨hb1, hb2, hb3, _, h5, h6⟩ := entriesStep_yield ics o e o2 hs
        omega
      · exact ih o2 e h


theorem iterStep_yield (tbl : List Nat) (o : Nat) (e : IEntry) (o2 : Nat)
    (h : iterStep tbl o = .yield e o2) :
    o < iterEnd tbl ∧ e.off = o ∧ o ≤ o2 := by
  unfold iterStep at h
  split at h
  · exact absurd h (by simp)
  · rename_i hlt
    refine ⟨by omega, ?_⟩
    repeat' split at h
    all_goals cases h
    all_goals exact ⟨rfl, by omega⟩

theorem iter_fixpoint (tbl : List Nat) (o : Nat) (e : IEntry)
    (h : iterStep tbl o = .yield e o) :
    ∀ f, (iterTrace tbl o f).2 = none := by
  intro f
  induction f with
  | zero => rfl
  | succ f ih => simp [iterTrace, h, ih]

theorem iterTrace_bound (tbl : List Nat) :
    ∀ f o G, ((iterTrace tbl o f).2).isSome → iterEnd tbl + 1 ≤ G + o → 1 ≤ G →
      ((iterTrace tbl o G).2).isSome := by
  intro f
  induction f with
  | zero => intro o G h _ _; simp [iterTrace] at h
  | succ f ih =>
    intro o G h hG1 hG2
    cases hs : iterStep tbl o with
    | halted => cases G with | zero => omega | succ G => simp [iterTrace, hs]
    | panicked => cases G with | zero => omega | succ G => simp [iterTrace, hs]
    | fault => cases G with | zero => omega | succ G => simp [iterTrace, hs]
    | yield e o2 =>
      obtain ⟨ho, _, hle⟩ := iterStep_yield tbl o e o2 hs
      simp only [iterTrace, hs] at h
      by_cases ho2 : o2 = o
      · subst ho2
        rw [iter_fixpoint tbl o2 e hs f] at h
        simp at h
      · cases G with
        | zero => omega
        | succ G =>
          have hrec : ((iterTrace tbl o2 G).2).isSome := ih o2 G h (by omega) (by omega)
          simp [iterTrace, hs, hrec]

theorem iter_mem_sound (tbl : List Nat) :
    ∀ f o e, e ∈ (iterTrace tbl o f).1 → e.off < iterEnd tbl := by
  intro f
  induction f with
  | zero => intro o e h; simp [iterTrace] at h
  | succ f ih =>
    intro o e h
    cases hs : iterStep tbl o with
    | halted => simp [iterTrace, hs] at h
    | panicked => simp [iterTrace, hs] at h
    | fault => simp [iterTrace, hs] at h
    | yield e2 o2 =>
      simp only [iterTrace, hs, List.mem_cons] at h
      rcases h with rfl | h
      · obtain ⟨ho, hoff, _⟩ := iterStep_yield tbl o e o2 hs
        omega
      · exact ih o2 e h

theorem entriesStep_complete (ics : List Nat) (o : Nat) (h2 : o + 2 ≤ ics.length)
    (h1 : 1 ≤ subLenAt ics o) (h3 : o + subLenAt ics o ≤ ics.length) :
    ∃ e, entriesStep ics o = .yield e (o + subLenAt ics o) ∧ e.off = o ∧
      e.len = subLenAt ics o := by
  unfold entriesStep
  rw [if_neg (by omega), if_neg (by omega), if_neg (by omega)]
  by_cases htag : entriesKnownTag (ics.getD o 0)
  · refine ⟨.known (ics.getD o 0) o (subLenAt ics o), ?_, rfl, rfl⟩
    rw [if_pos htag]
  · refine ⟨.unknown o (subLenAt ics o) (wsub (subLenAt ics o) 2), ?_, rfl, rfl⟩
    rw [if_neg htag]


/-- C3 counterexample: `iter_madt` on a container of declared length 46
whose single sub-record declares length 200 *does* yield that record
(an `Unknown` spanning `[44, 244)`), although its byte range extends far
past the container bound — the original claim's "yield exactly those
records whose byte range is fully contained in `[0, L)`" is false for
`iter_madt`. -/
theorem c3_counterexample :
    (iterTrace madtOverTbl 44 3).1 = [IEntry.unknown 44 127 200] ∧
      iterEnd madtOverTbl < 44 + 200 := by decide

/-- C3 (amended).  `Madt::entries` yields only records fully contained in
the sub-record region (header and declared extent in range, nonzero
declared length) and, conversely, a fully-in-range record is always
yielded with the walk continuing exactly past it — so `entries` emits
exactly the maximal in-bounds prefix of the record chain and reads no
byte outside the region (every access in `entries` is a bounds-checked
slice `get`).  `iter_madt`, by contrast, guarantees only that no yielded
record's header *starts* at or past the container's declared length: a
record whose declared length extends past the bound is still yielded
(see the counterexample). -/
theorem c3_walker_bounds :
    (∀ ics f o e, e ∈ (entriesTrace ics o f).1 →
      e.off + 2 ≤ ics.length ∧ e.off + e.len ≤ ics.length ∧ 1 ≤ e.len) ∧
    (∀ ics o, o + 2 ≤ ics.length → 1 ≤ subLenAt ics o → o + subLenAt ics o ≤ ics.length →
      ∃ e, entriesStep ics o = .yield e (o + subLenAt ics o) ∧ e.off = o ∧
        e.len = subLenAt ics o) ∧
    (∀ tbl f e, e ∈ (iterTrace tbl 44 f).1 → e.off < iterEnd tbl) :=
  ⟨fun ics f o e h => entries_mem_sound ics f o e h,
   fun ics o h2 h1 h3 => entriesStep_complete ics o h2 h1 h3,
   fun tbl f e h => iter_mem_sound tbl f 44 e h⟩

/-- C3 witness: on the region `[0x7F, 2]` the single yielded entry is in
bounds, an in-range record is yielded by `entriesStep`, and the record
yielded by `iter_madt` on the well-formed MADT starts below the bound. -/
theorem c3_walker_bounds_witness :
    (MEntry.off (.unknown 0 2 0) + MEntry.len (.unknown 0 2 0) ≤ icsOk.length) ∧
    (∃ e, entriesStep icsOk 0 = .yield e (0 + subLenAt icsOk 0) ∧ e.off = 0 ∧
      e.len = subLenAt icsOk 0) ∧
    IEntry.off (.unknown 44 127 2) < iterEnd madtOkTbl :=
  ⟨(c3_walker_bounds.1 icsOk 3 0 (.unknown 0 2 0) (by decide)).2.1,
   c3_walker_bounds.2.1 icsOk 0 (by decide) (by decide) (by decide),
   c3_walker_bounds.2.2 madtOkTbl 5 (.unknown 44 127 2) (by decide)⟩

/-- C5 counterexample: on a container whose single sub-record declares
total length 0, `iter_madt` yields an `Unknown` entry at the same offset
forever — the iterator never reaches its terminal state, refuting
termination for every container content. -/
theorem c5_counterexample : ¬ IterMadtHalts madtLoopTbl := by
  intro hex
  obtain ⟨f, hf⟩ := hex
  have hs : iterStep madtLoopTbl 44 = .yield (.unknown 44 127 0) 44 := by decide
  rw [iter_fixpoint madtLoopTbl 44 (.unknown 44 127 0) hs f] at hf
  simp at hf

/-- C5 (amended).  `Madt::entries` always stops after at most
`ics.length` yielded records — reaching the iterator's terminal state, or
panicking on a zero-length sub-record (`bytes[0]` on an empty slice);
fuel `ics.length + 1` always suffices.  `iter_madt` halts if and only if
it halts within `header.length + 2` steps (each step either halts,
advances the offset by the record's nonzero declared length, or — on a
zero-length record — repeats the same offset forever), so a zero-length
sub-record makes it yield entries forever, as in the counterexample. -/
theorem c5_walker_halting :
    (∀ ics o f, ics.length + 1 ≤ f + o → 1 ≤ f → ((entriesTrace ics o f).2).isSome) ∧
    (∀ tbl, IterMadtHalts tbl ↔ ((iterTrace tbl 44 (iterEnd tbl + 2)).2).isSome) := by
  constructor
  · intro ics o f h1 h2
    exact entriesTrace_halts ics f o h1 h2
  · intro tbl
    constructor
    · rintro ⟨f, hf⟩
      exact iterTrace_bound tbl f 44 (iterEnd tbl + 2) hf (by omega) (by omega)
    · intro h
      exact ⟨iterEnd tbl + 2, h⟩

/-- C5 witness: both walkers halt on the well-formed single-record
inputs. -/
theorem c5_walker_halting_witness :
    ((entriesTrace icsOk 0 3).2).isSome ∧ IterMadtHalts madtOkTbl :=
  ⟨c5_walker_halting.1 icsOk 0 3 (by decide) (by decide),
   (c5_walker_halting.2 madtOkTbl).mpr (by decide)⟩

/-- C8 counterexample: `Madt::entries` on a sub-record of declared length
1 (unknown tag `0x7F`) yields an `Unknown` whose trailing-byte count is
`1 - 2` wrapped to `2^64 − 1` — the view spans `2 + (2^64 − 1)` bytes,
not the record's declared length 1. -/
theorem c8_counterexample :
    entriesStep icsShort 0 = .yield (.unknown 0 1 18446744073709551615) 1 ∧
      2 + 18446744073709551615 ≠ 1 := by
  constructor
  · decide
  · decide

/-- C8 (amended).  An in-range sub-record whose type tag is outside the
walker's recognised set is never dropped, never decoded as a known shape
and never a failure: `iter_madt` (recognised tags `0x00`, `0x18`) yields
`Unknown(kind, span)` whose span is the record's first byte with length
exactly the declared length, for *every* declared length; `Madt::entries`
(fifteen recognised tags) yields an `Unknown` DST spanning the 2-byte
sub-record header plus `declared − 2` trailing bytes — exactly the
declared length — provided the declared length is at least the 2-byte
header (below that the `usize` subtraction wraps, see the
counterexample). -/
theorem c8_unknown_preserved :
    (∀ tbl o kind len, o < iterEnd tbl → readB tbl o = some kind →
      readB tbl (o + 1) = some len → kind ≠ 0 → kind ≠ 24 →
      iterStep tbl o = .yield (.unknown o kind len) (o + len)) ∧
    (∀ ics o, o + 2 ≤ ics.length → o + subLenAt ics o ≤ ics.length →
      2 ≤ subLenAt ics o → entriesKnownTag (ics.getD o 0) = false →
      entriesStep ics o =
        .yield (.unknown o (subLenAt ics o) (subLenAt ics o - 2)) (o + subLenAt ics o)) := by
  constructor
  · intro tbl o kind len ho hk hl hk0 hk24
    unfold iterStep
    rw [if_neg (Nat.not_le.mpr ho)]
    simp only [hk, hl]
    rw [if_neg hk0, if_neg hk24]
  · intro ics o h2 h3 hge htag
    have htag2 : entriesKnownTag (ics[o]?.getD 0) = false := by
      rw [show ics[o]?.getD 0 = ics.getD o 0 from by simp [List.getD]]
      exact htag
    unfold entriesStep
    rw [if_neg (by omega), if_neg (by omega), if_neg (by omega),
      if_neg (by simp [htag2])]
    simp [wsub, hge]

/-- C8 witness: the unknown-tag record of `madtOkTbl` is yielded by
`iter_madt` with span length equal to its declared length 2, and the
same region's record is yielded by `Madt::entries` as an `Unknown` of
full declared extent. -/
theorem c8_unknown_preserved_witness :
    iterStep madtOkTbl 44 = .yield (.unknown 44 127 2) (44 + 2) ∧
    entriesStep icsOk 0 =
      .yield (.unknown 0 (subLenAt icsOk 0) (subLenAt icsOk 0 - 2)) (0 + subLenAt icsOk 0) :=
  ⟨c8_unknown_preserved.1 madtOkTbl 44 127 2 (by decide) (by decide) (by decide)
      (by decide) (by decide),
   c8_unknown_preserved.2 icsOk 0 (by decide) (by decide) (by decide) (by decide)⟩


/-- C4.  `Rhct::get_node` evaluated at the out-of-range offsets: at
`offset = 62` — exactly the table's total declared (and mapped) length —
the first bounds check passes (`nodes.get(rel..)` returns the empty tail
slice) and the subsequent read of the 6-byte node header falls entirely
past the end of the mapped table (`none`, a fault), instead of the
claimed clean no-result; offsets below the 56-byte prefix and far past
the end do produce a clean `None` (wrapping rebase followed by a failing
range check), and an in-range offset succeeds. -/
theorem c4_get_node_reads_past_table :
    getNode rhctTbl 62 = none ∧
    readU32L rhctTbl 4 = 62 ∧ rhctTbl.length = 62 ∧
    getNode rhctTbl 55 = some none ∧ getNode rhctTbl 100 = some none ∧
    getNode rhctTbl 56 = some (some (56, 6)) := by decide

theorem rhctAux_filter (tbl : List Nat) :
    ∀ count off,
      rhctNodesAux tbl off count =
        (rhctWalkAux tbl off count).map (List.filter (fun v => decide (v.ty = 65535))) ∧
      (∀ l, rhctWalkAux tbl off count = some l → l.length ≤ count) := by
  intro count
  induction count with
  | zero =>
    intro off
    constructor
    · simp [rhctNodesAux, rhctWalkAux]
    · intro l h
      simp only [rhctWalkAux, Option.some.injEq] at h
      cases h
      simp
  | succ count ih =>
    intro off
    cases hg : getNode tbl off with
    | none =>
      constructor
      · simp [rhctNodesAux, rhctWalkAux, hg]
      · intro l h
        simp [rhctWalkAux, hg] at h
    | some v =>
      cases v with
      | none =>
        constructor
        · simp only [rhctNodesAux, rhctWalkAux, hg]
          exact (ih off).1
        · intro l h
          simp only [rhctWalkAux, hg] at h
          have := (ih off).2 l h
          omega
      | some p =>
        obtain ⟨abs, l0⟩ := p
        constructor
        · simp only [rhctNodesAux, rhctWalkAux, hg]
          rw [(ih (off + l0)).1]
          cases hw : rhctWalkAux tbl (off + l0) count with
          | none => simp
          | some rest =>
            by_cases hty : tbl.getD abs 0 + 256 * tbl.getD (abs + 1) 0 = 65535 <;>
              simp [List.filter_cons, hty]
        · intro l h
          simp only [rhctWalkAux, hg] at h
          cases hw : rhctWalkAux tbl (off + l0) count with
          | none => rw [hw] at h; simp at h
          | some rest =>
            rw [hw] at h
            simp only [Option.map_some', Option.some.injEq] at h
            have := (ih (off + l0)).2 rest hw
            cases h
            simp only [List.length_cons]
            omega

/-- C10.  `Rhct::nodes` starts at the table-relative `nodes_offset`,
walks at most `nodes_len` sub-records, and yields exactly the walked
nodes whose type tag equals `HART_INFO` (65535), in storage order (the
yielded sequence is the `HART_INFO` filter of the walked sequence); every
other node type — ISA string (0), CMO info (1), MMU info (2) or
unrecognised — is skipped by the `filter_map` closure's `None` branch,
not yielded and not an error. -/
theorem c10_nodes_hart_info (tbl : List Nat) :
    rhctNodes tbl =
      (rhctWalk tbl).map (List.filter (fun v => decide (v.ty = 65535))) ∧
    (∀ l, rhctWalk tbl = some l → l.length ≤ rhctNodesLenF tbl) :=
  ⟨(rhctAux_filter tbl (rhctNodesLenF tbl) (rhctNodesOffsetF tbl)).1,
   fun l h => (rhctAux_filter tbl (rhctNodesLenF tbl) (rhctNodesOffsetF tbl)).2 l h⟩

/-- C10 witness: on the RHCT with an ISA-string node followed by a
`HART_INFO` node, the walk visits both nodes and `Rhct::nodes` yields
exactly the `HART_INFO` one. -/
theorem c10_nodes_hart_info_witness :
    rhctNodes rhctTbl2 =
      (rhctWalk rhctTbl2).map (List.filter (fun v => decide (v.ty = 65535))) ∧
    List.length [(⟨56, 0, 8⟩ : NodeView), ⟨64, 65535, 6⟩] ≤ rhctNodesLenF rhctTbl2 :=
  ⟨(c10_nodes_hart_info rhctTbl2).1,
   (c10_nodes_hart_info rhctTbl2).2 [⟨56, 0, 8⟩, ⟨64, 65535, 6⟩] (by decide)⟩
